import Mathlib

/-!
Verification of the benchmark/statistics engine of the `quick` HTTP client
(repository `spacewander/quick`).

The definitions below are a shallow embedding of the Go source:

* `bmStat`, `newBmStat`, `bmStat.AddErr`, `bmStat.Merge`, `bmStat.IncrReq`,
  `bmStat.IncrBadStatusCode`, `aggregateStatFromReqCtx`, `printStats`
  mirror `form.go` (the revision with the hdrhistogram-backed latency field).
* `checkArgsBmPhase` and `runMode` mirror the benchmark-mode fragment of
  `checkArgs` and the dispatch in `run` from `quick.go`.
* `runAttempt` and `fatal` mirror the per-slot request construction and the
  fatal-error path of `runReqsInParallel` / `fatal`.
* `WState`/`step`/`runSched` are a small-step interleaving model of the
  worker loop `runReqsInParallel` (slots, outcome channel, wait group,
  `done` channel, timer and cancellation branches).

Go `map[string]int` values are embedded as association lists with unique
keys; Go `int64` counters are embedded as unbounded `Int` (the counters only
ever grow by small increments, far from the 2^63 wrap). The external
hdrhistogram library is embedded abstractly: a histogram is its configured
upper bound together with the multiset of successfully recorded values;
`RecordValue` fails exactly on values outside the configured range
`[0, bmDuration]` and `Merge` is bin-wise addition, as the library provides.
-/

/-- Association-list lookup, embedding Go's `count, found := bs.errs[desc]`. -/
def lookupL : List (String × Nat) → String → Option Nat
  | [], _ => none
  | (k, v) :: rest, d => if k = d then some v else lookupL rest d

/-- Count stored for a description, with a missing key reading as 0. -/
def cntL (m : List (String × Nat)) (d : String) : Nat :=
  (lookupL m d).getD 0

/-- Embeds the body of `bmStat.AddErr` (form.go): `bs.errs[desc] = count + 1`
when the key is present, else `bs.errs[desc] = 1`. Association lists are
unordered maps here: the updated entry keeps its position, a fresh key goes
to the end. -/
def bumpList : List (String × Nat) → String → List (String × Nat)
  | [], d => [(d, 1)]
  | (k, v) :: rest, d =>
      if k = d then (k, v + 1) :: rest else (k, v) :: bumpList rest d

/-- Embeds one iteration of the merge loop in `bmStat.Merge` (form.go):
`bs.errs[desc] = a + b` when found, else `bs.errs[desc] = a`. -/
def addMergeList : List (String × Nat) → String → Nat → List (String × Nat)
  | [], d, a => [(d, a)]
  | (k, v) :: rest, d, a =>
      if k = d then (k, v + a) :: rest else (k, v) :: addMergeList rest d a

/-- Embeds the `for desc, a := range other.errs` loop of `bmStat.Merge`. -/
def mergeErrList (bs other : List (String × Nat)) : List (String × Nat) :=
  other.foldl (fun acc p => addMergeList acc p.1 p.2) bs

/-- Sum of all per-description error counts of a map. -/
def errSumL (m : List (String × Nat)) : Nat :=
  (m.map (·.2)).sum

/-- Abstraction of the external hdrhistogram histogram created by
`hdrhistogram.New(0, int64(config.bmDuration), 5)`: the configured upper
bound plus the multiset (as a list) of successfully recorded values. -/
structure Histogram where
  highest : Int
  values : List Int
  deriving Repr, DecidableEq

/-- Records a value, failing on values outside the configured range
`[0, highest]` — the behaviour of the external library's `RecordValue`
which the caller in `aggregateStatFromReqCtx` turns into a warning. -/
def Histogram.recordValue (h : Histogram) (v : Int) : Except String Histogram :=
  if 0 ≤ v ∧ v ≤ h.highest then
    .ok { h with values := v :: h.values }
  else
    .error ("value outside of histogram range: " ++ toString v)

/-- Bin-wise merge of two histograms (the external library's `Merge`),
abstracted as multiset union of the recorded values. -/
def Histogram.mergeHist (a b : Histogram) : Histogram :=
  { a with values := a.values ++ b.values }

/-- Number of samples recorded at a given value; two histograms agree
bin-wise iff they agree on `binCount` at every value. -/
def Histogram.binCount (h : Histogram) (v : Int) : Nat :=
  h.values.count v

/-- Embeds the `bmStat` struct of form.go. `errs == nil` (no error ever
recorded) is distinguished from an allocated map by the `Option`. -/
structure bmStat where
  errs : Option (List (String × Nat))
  reqs : Int
  badStatusCode : Int
  latency : Histogram
  deriving Repr, DecidableEq

/-- Embeds `newBmStat` (form.go): zero counters, nil error map, histogram
bounded by `config.bmDuration`. -/
def newBmStat (bmDuration : Int) : bmStat :=
  { errs := none, reqs := 0, badStatusCode := 0,
    latency := { highest := bmDuration, values := [] } }

/-- Embeds `bmStat.AddErr` (form.go). Go indexes the map by `err.Error()`;
the embedding carries that textual description directly, so two distinct
errors with equal descriptions land in the same bucket by construction. -/
def bmStat.AddErr (bs : bmStat) (desc : String) : bmStat :=
  { bs with errs := some (bumpList (bs.errs.getD []) desc) }

/-- Embeds `bmStat.IncrReq` (form.go). -/
def bmStat.IncrReq (bs : bmStat) : bmStat :=
  { bs with reqs := bs.reqs + 1 }

/-- Embeds `bmStat.IncrBadStatusCode` (form.go). -/
def bmStat.IncrBadStatusCode (bs : bmStat) : bmStat :=
  { bs with badStatusCode := bs.badStatusCode + 1 }

/-- Embeds `bmStat.Merge` (form.go): adds the two counters, merges the
latency histograms, then unions the error maps with the nil checks of the
source (`other.errs == nil` returns early, a nil receiver map is allocated
empty first). -/
def bmStat.Merge (bs other : bmStat) : bmStat :=
  let bs' : bmStat :=
    { bs with reqs := bs.reqs + other.reqs,
              badStatusCode := bs.badStatusCode + other.badStatusCode,
              latency := bs.latency.mergeHist other.latency }
  match other.errs with
  | none => bs'
  | some m => { bs' with errs := some (mergeErrList (bs'.errs.getD []) m) }

/-- Embeds the `reqResult` struct of form.go; `err` holds the textual
description `err.Error()` of a transport/read error when one occurred. -/
structure reqResult where
  err : Option String
  statusCode : Int
  time : Int
  deriving Repr, DecidableEq

/-- Predicate of the bad-status test `res.statusCode < 200 || res.statusCode >= 400`
in `aggregateStatFromReqCtx` (form.go). -/
def badStatus (code : Int) : Prop :=
  code < 200 ∨ 400 ≤ code

instance (code : Int) : Decidable (badStatus code) := by
  unfold badStatus; infer_instance

/-- Embeds `aggregateStatFromReqCtx` (form.go): increment the request count
unconditionally; on an error add it to the error map, else on a bad status
bump `badStatusCode`; finally record the latency, turning a recording
failure into a warning (returned as the second component; the source calls
`warn(err.Error())`). The `ctx.cancel()` call and the `reqCtxPool` recycling
of the source are side effects that do not touch the statistics. -/
def aggregateStatFromReqCtx (stat : bmStat) (res : reqResult) :
    bmStat × Option String :=
  let stat1 := stat.IncrReq
  let stat2 :=
    match res.err with
    | some e => stat1.AddErr e
    | none =>
        if badStatus res.statusCode then stat1.IncrBadStatusCode else stat1
  match stat2.latency.recordValue res.time with
  | .ok h => ({ stat2 with latency := h }, none)
  | .error msg => (stat2, some msg)

/-- Per-description error count of a stat, reading a nil map as all-zero. -/
def bmStat.errCount (bs : bmStat) (d : String) : Nat :=
  cntL (bs.errs.getD []) d

/-- Total number of recorded errors of a stat. -/
def bmStat.errSum (bs : bmStat) : Nat :=
  errSumL (bs.errs.getD [])

/-- Guard of `bmStat.PrintErr` (form.go): the `Errors:` section is printed
iff the error map is non-nil. -/
def bmStat.printErrShown (bs : bmStat) : Bool :=
  bs.errs.isSome

/-- Folds a list of request outcomes into a fresh stat, exactly as the
aggregation loop of `runReqsInParallel` does for one connection. -/
def buildStat (bmDuration : Int) (outcomes : List reqResult) : bmStat :=
  outcomes.foldl (fun s o => (aggregateStatFromReqCtx s o).1) (newBmStat bmDuration)

/-- Value equality of statistics as observed by the report: request count,
bad-status count, every per-description error count, and the latency
histogram bin by bin. -/
def statEquiv (a b : bmStat) : Prop :=
  a.reqs = b.reqs ∧ a.badStatusCode = b.badStatusCode ∧
    (∀ d, a.errCount d = b.errCount d) ∧
    (∀ v, a.latency.binCount v = b.latency.binCount v)

/-- Contribution of a map's entries to one description: the sum of the
values stored under that key (equals the lookup when keys are unique). -/
def sumContrib (m : List (String × Nat)) (x : String) : Nat :=
  (m.map (fun p => if x = p.1 then p.2 else 0)).sum

/-- Keys of an association-list map. -/
def keysL (m : List (String × Nat)) : List String :=
  m.map Prod.fst

theorem cntL_bumpList (m : List (String × Nat)) (d x : String) :
    cntL (bumpList m d) x = cntL m x + (if x = d then 1 else 0) := by
  induction m with
  | nil =>
      by_cases hx : x = d
      · subst hx; simp [bumpList, cntL, lookupL]
      · have hdx : ¬ d = x := fun h => hx h.symm
        simp [bumpList, cntL, lookupL, hx, hdx]
  | cons p rest ih =>
      obtain ⟨k, v⟩ := p
      simp only [bumpList]
      by_cases hk : k = d
      · rw [if_pos hk]
        by_cases hx : k = x
        · have hxd : x = d := by rw [← hx]; exact hk
          simp [cntL, lookupL, hx, hxd]
        · have hxd : ¬ x = d := fun h => hx (hk.trans h.symm)
          simp [cntL, lookupL, hx, hxd]
      · rw [if_neg hk]
        by_cases hx : k = x
        · have hxd : ¬ x = d := fun h => hk (hx.trans h)
          simp [cntL, lookupL, hx, hxd]
        · simp only [cntL, lookupL, if_neg hx]
          exact ih

theorem cntL_addMergeList (m : List (String × Nat)) (d : String) (a : Nat)
    (x : String) :
    cntL (addMergeList m d a) x = cntL m x + (if x = d then a else 0) := by
  induction m with
  | nil =>
      by_cases hx : x = d
      · subst hx; simp [addMergeList, cntL, lookupL]
      · have hdx : ¬ d = x := fun h => hx h.symm
        simp [addMergeList, cntL, lookupL, hx, hdx]
  | cons p rest ih =>
      obtain ⟨k, v⟩ := p
      simp only [addMergeList]
      by_cases hk : k = d
      · rw [if_pos hk]
        by_cases hx : k = x
        · have hxd : x = d := by rw [← hx]; exact hk
          simp [cntL, lookupL, hx, hxd]
        · have hxd : ¬ x = d := fun h => hx (hk.trans h.symm)
          simp [cntL, lookupL, hx, hxd]
      · rw [if_neg hk]
        by_cases hx : k = x
        · have hxd : ¬ x = d := fun h => hk (hx.trans h)
          simp [cntL, lookupL, hx, hxd]
        · simp only [cntL, lookupL, if_neg hx]
          exact ih

theorem cntL_mergeErrList (other : List (String × Nat)) :
    ∀ bs x, cntL (mergeErrList bs other) x = cntL bs x + sumContrib other x := by
  induction other with
  | nil => intro bs x; simp [mergeErrList, sumContrib]
  | cons p rest ih =>
      intro bs x
      have step : mergeErrList bs (p :: rest)
          = mergeErrList (addMergeList bs p.1 p.2) rest := rfl
      rw [step, ih, cntL_addMergeList]
      simp only [sumContrib, List.map_cons, List.sum_cons]
      ring

theorem sumContrib_eq_zero_of_not_mem (m : List (String × Nat)) (x : String)
    (h : x ∉ keysL m) : sumContrib m x = 0 := by
  induction m with
  | nil => rfl
  | cons p rest ih =>
      simp only [keysL, List.map_cons, List.mem_cons, not_or] at h
      have hx : ¬ x = p.1 := h.1
      have hrest : sumContrib rest x = 0 := ih (by simpa [keysL] using h.2)
      simp only [sumContrib, List.map_cons, List.sum_cons, if_neg hx] at *
      simpa [sumContrib] using hrest

theorem cntL_eq_zero_of_not_mem (m : List (String × Nat)) (x : String)
    (h : x ∉ keysL m) : cntL m x = 0 := by
  induction m with
  | nil => rfl
  | cons p rest ih =>
      obtain ⟨k, v⟩ := p
      simp only [keysL, List.map_cons, List.mem_cons, not_or] at h
      have hx : ¬ k = x := fun hh => h.1 hh.symm
      simp only [cntL, lookupL, if_neg hx]
      exact ih (by simpa [keysL] using h.2)

theorem sumContrib_eq_cntL (m : List (String × Nat))
    (h : (keysL m).Nodup) (x : String) : sumContrib m x = cntL m x := by
  induction m with
  | nil => rfl
  | cons p rest ih =>
      obtain ⟨k, v⟩ := p
      simp only [keysL, List.map_cons, List.nodup_cons] at h
      by_cases hx : x = k
      · subst hx
        have h0 : sumContrib rest x = 0 :=
          sumContrib_eq_zero_of_not_mem rest x (by simpa [keysL] using h.1)
        simp only [sumContrib] at h0
        simp [sumContrib, cntL, lookupL, h0]
      · have hkx : ¬ k = x := fun hh => hx hh.symm
        have := ih (by simpa [keysL] using h.2)
        simp only [sumContrib, List.map_cons, List.sum_cons, if_neg hx,
          cntL, lookupL, if_neg hkx]
        simpa [sumContrib, cntL] using this

theorem mem_keysL_bumpList (m : List (String × Nat)) (d x : String) :
    x ∈ keysL (bumpList m d) ↔ x ∈ keysL m ∨ x = d := by
  induction m with
  | nil => simp [bumpList, keysL]
  | cons p rest ih =>
      obtain ⟨k, v⟩ := p
      simp only [bumpList]
      by_cases hk : k = d
      · rw [if_pos hk]
        subst hk
        simp only [keysL, List.map_cons, List.mem_cons]
        constructor
        · rintro (h | h)
          · exact Or.inl (Or.inl h)
          · exact Or.inl (Or.inr h)
        · rintro ((h | h) | h)
          · exact Or.inl h
          · exact Or.inr h
          · exact Or.inl h
      · rw [if_neg hk]
        simp only [keysL, List.map_cons, List.mem_cons] at *
        rw [ih]
        tauto

theorem nodup_keysL_bumpList (m : List (String × Nat)) (d : String)
    (h : (keysL m).Nodup) : (keysL (bumpList m d)).Nodup := by
  induction m with
  | nil => simp [bumpList, keysL]
  | cons p rest ih =>
      obtain ⟨k, v⟩ := p
      simp only [keysL, List.map_cons, List.nodup_cons] at h
      simp only [bumpList]
      by_cases hk : k = d
      · rw [if_pos hk]
        simp only [keysL, List.map_cons, List.nodup_cons]
        exact ⟨by simpa [keysL] using h.1, h.2⟩
      · rw [if_neg hk]
        simp only [keysL, List.map_cons, List.nodup_cons]
        refine ⟨?_, by simpa [keysL] using ih h.2⟩
        intro hmem
        rcases (mem_keysL_bumpList rest d k).1 (by simpa [keysL] using hmem) with hm | hm
        · exact h.1 (by simpa [keysL] using hm)
        · exact hk hm

theorem mem_keysL_addMergeList (m : List (String × Nat)) (d : String) (a : Nat)
    (x : String) :
    x ∈ keysL (addMergeList m d a) ↔ x ∈ keysL m ∨ x = d := by
  induction m with
  | nil => simp [addMergeList, keysL]
  | cons p rest ih =>
      obtain ⟨k, v⟩ := p
      simp only [addMergeList]
      by_cases hk : k = d
      · rw [if_pos hk]
        subst hk
        simp only [keysL, List.map_cons, List.mem_cons]
        constructor
        · rintro (h | h)
          · exact Or.inl (Or.inl h)
          · exact Or.inl (Or.inr h)
        · rintro ((h | h) | h)
          · exact Or.inl h
          · exact Or.inr h
          · exact Or.inl h
      · rw [if_neg hk]
        simp only [keysL, List.map_cons, List.mem_cons] at *
        rw [ih]
        tauto

theorem nodup_keysL_addMergeList (m : List (String × Nat)) (d : String) (a : Nat)
    (h : (keysL m).Nodup) : (keysL (addMergeList m d a)).Nodup := by
  induction m with
  | nil => simp [addMergeList, keysL]
  | cons p rest ih =>
      obtain ⟨k, v⟩ := p
      simp only [keysL, List.map_cons, List.nodup_cons] at h
      simp only [addMergeList]
      by_cases hk : k = d
      · rw [if_pos hk]
        simp only [keysL, List.map_cons, List.nodup_cons]
        exact ⟨by simpa [keysL] using h.1, h.2⟩
      · rw [if_neg hk]
        simp only [keysL, List.map_cons, List.nodup_cons]
        refine ⟨?_, by simpa [keysL] using ih h.2⟩
        intro hmem
        rcases (mem_keysL_addMergeList rest d a k).1 (by simpa [keysL] using hmem) with hm | hm
        · exact h.1 (by simpa [keysL] using hm)
        · exact hk hm

theorem nodup_keysL_mergeErrList (other : List (String × Nat)) :
    ∀ bs, (keysL bs).Nodup → (keysL (mergeErrList bs other)).Nodup := by
  induction other with
  | nil => intro bs h; simpa [mergeErrList] using h
  | cons p rest ih =>
      intro bs h
      have step : mergeErrList bs (p :: rest)
          = mergeErrList (addMergeList bs p.1 p.2) rest := rfl
      rw [step]
      exact ih _ (nodup_keysL_addMergeList bs p.1 p.2 h)

theorem errSumL_bumpList (m : List (String × Nat)) (d : String) :
    errSumL (bumpList m d) = errSumL m + 1 := by
  induction m with
  | nil => simp [bumpList, errSumL]
  | cons p rest ih =>
      obtain ⟨k, v⟩ := p
      simp only [bumpList]
      by_cases hk : k = d
      · rw [if_pos hk]; simp [errSumL]; ring
      · rw [if_neg hk]
        simp only [errSumL, List.map_cons, List.sum_cons] at *
        rw [ih]; ring

theorem errSumL_addMergeList (m : List (String × Nat)) (d : String) (a : Nat) :
    errSumL (addMergeList m d a) = errSumL m + a := by
  induction m with
  | nil => simp [addMergeList, errSumL]
  | cons p rest ih =>
      obtain ⟨k, v⟩ := p
      simp only [addMergeList]
      by_cases hk : k = d
      · rw [if_pos hk]; simp [errSumL]; ring
      · rw [if_neg hk]
        simp only [errSumL, List.map_cons, List.sum_cons] at *
        rw [ih]; ring

theorem errSumL_mergeErrList (other : List (String × Nat)) :
    ∀ bs, errSumL (mergeErrList bs other) = errSumL bs + errSumL other := by
  induction other with
  | nil => intro bs; simp [mergeErrList, errSumL]
  | cons p rest ih =>
      intro bs
      have step : mergeErrList bs (p :: rest)
          = mergeErrList (addMergeList bs p.1 p.2) rest := rfl
      rw [step, ih, errSumL_addMergeList]
      simp only [errSumL, List.map_cons, List.sum_cons]
      ring

theorem bumpList_ne_nil (m : List (String × Nat)) (d : String) :
    bumpList m d ≠ [] := by
  cases m with
  | nil => simp [bumpList]
  | cons p rest =>
      obtain ⟨k, v⟩ := p
      simp only [bumpList]
      by_cases hk : k = d
      · rw [if_pos hk]; simp
      · rw [if_neg hk]; simp

theorem addMergeList_ne_nil (m : List (String × Nat)) (d : String) (a : Nat) :
    addMergeList m d a ≠ [] := by
  cases m with
  | nil => simp [addMergeList]
  | cons p rest =>
      obtain ⟨k, v⟩ := p
      simp only [addMergeList]
      by_cases hk : k = d
      · rw [if_pos hk]; simp
      · rw [if_neg hk]; simp

theorem mergeErrList_ne_nil (other : List (String × Nat)) :
    ∀ bs, bs ≠ [] ∨ other ≠ [] → mergeErrList bs other ≠ [] := by
  induction other with
  | nil =>
      intro bs h
      rcases h with h | h
      · simpa [mergeErrList] using h
      · exact absurd rfl h
  | cons p rest ih =>
      intro bs _
      have step : mergeErrList bs (p :: rest)
          = mergeErrList (addMergeList bs p.1 p.2) rest := rfl
      rw [step]
      exact ih _ (Or.inl (addMergeList_ne_nil bs p.1 p.2))

theorem bumpList_entries_pos (m : List (String × Nat)) (d : String)
    (h : ∀ p ∈ m, 1 ≤ p.2) : ∀ p ∈ bumpList m d, 1 ≤ p.2 := by
  induction m with
  | nil => simp [bumpList]
  | cons q rest ih =>
      obtain ⟨k, v⟩ := q
      simp only [bumpList]
      by_cases hk : k = d
      · rw [if_pos hk]
        intro p hp
        rcases List.mem_cons.1 hp with h1 | h1
        · subst h1; simp
        · exact h p (List.mem_cons_of_mem _ h1)
      · rw [if_neg hk]
        intro p hp
        rcases List.mem_cons.1 hp with h1 | h1
        · subst h1; exact h (k, v) (List.mem_cons_self _ _)
        · exact ih (fun q hq => h q (List.mem_cons_of_mem _ hq)) p h1

theorem addMergeList_entries_pos (m : List (String × Nat)) (d : String) (a : Nat)
    (h : ∀ p ∈ m, 1 ≤ p.2) (ha : 1 ≤ a) : ∀ p ∈ addMergeList m d a, 1 ≤ p.2 := by
  induction m with
  | nil => simpa [addMergeList] using ha
  | cons q rest ih =>
      obtain ⟨k, v⟩ := q
      simp only [addMergeList]
      by_cases hk : k = d
      · rw [if_pos hk]
        intro p hp
        rcases List.mem_cons.1 hp with h1 | h1
        · subst h1; simp; omega
        · exact h p (List.mem_cons_of_mem _ h1)
      · rw [if_neg hk]
        intro p hp
        rcases List.mem_cons.1 hp with h1 | h1
        · subst h1; exact h (k, v) (List.mem_cons_self _ _)
        · exact ih (fun q hq => h q (List.mem_cons_of_mem _ hq)) p h1

theorem mergeErrList_entries_pos (other : List (String × Nat)) :
    ∀ bs, (∀ p ∈ bs, 1 ≤ p.2) → (∀ p ∈ other, 1 ≤ p.2) →
      ∀ p ∈ mergeErrList bs other, 1 ≤ p.2 := by
  induction other with
  | nil => intro bs hbs _; simpa [mergeErrList] using hbs
  | cons q rest ih =>
      intro bs hbs hother
      have step : mergeErrList bs (q :: rest)
          = mergeErrList (addMergeList bs q.1 q.2) rest := rfl
      rw [step]
      exact ih _
        (addMergeList_entries_pos bs q.1 q.2 hbs
          (hother q (List.mem_cons_self _ _)))
        (fun p hp => hother p (List.mem_cons_of_mem _ hp))

theorem aggregateStatFromReqCtx_eq (s : bmStat) (o : reqResult) :
    aggregateStatFromReqCtx s o =
      (let s2 : bmStat :=
        match o.err with
        | some e => (s.IncrReq).AddErr e
        | none =>
            if badStatus o.statusCode then (s.IncrReq).IncrBadStatusCode
            else s.IncrReq
      if 0 ≤ o.time ∧ o.time ≤ s.latency.highest then
        ({ s2 with latency := { s2.latency with values := o.time :: s2.latency.values } }, none)
      else
        (s2, some ("value outside of histogram range: " ++ toString o.time))) := by
  cases ho : o.err <;>
    simp only [aggregateStatFromReqCtx, ho, bmStat.IncrReq, bmStat.AddErr,
      bmStat.IncrBadStatusCode, Histogram.recordValue] <;>
    repeat' split <;> try simp_all

theorem agg_reqs (s : bmStat) (o : reqResult) :
    (aggregateStatFromReqCtx s o).1.reqs = s.reqs + 1 := by
  rw [aggregateStatFromReqCtx_eq]
  cases ho : o.err <;>
    simp only [bmStat.IncrReq, bmStat.AddErr, bmStat.IncrBadStatusCode] <;>
    repeat' split <;> try simp_all

theorem agg_bad (s : bmStat) (o : reqResult) :
    (aggregateStatFromReqCtx s o).1.badStatusCode =
      s.badStatusCode +
        (if o.err = none ∧ badStatus o.statusCode then 1 else 0) := by
  rw [aggregateStatFromReqCtx_eq]
  cases ho : o.err <;>
    simp only [bmStat.IncrReq, bmStat.AddErr, bmStat.IncrBadStatusCode] <;>
    repeat' split <;> try simp_all

theorem agg_errs_some (s : bmStat) (o : reqResult) (e : String)
    (h : o.err = some e) :
    (aggregateStatFromReqCtx s o).1.errs = some (bumpList (s.errs.getD []) e) := by
  rw [aggregateStatFromReqCtx_eq]
  simp only [h, bmStat.IncrReq, bmStat.AddErr]
  split <;> rfl

theorem agg_errs_none (s : bmStat) (o : reqResult) (h : o.err = none) :
    (aggregateStatFromReqCtx s o).1.errs = s.errs := by
  rw [aggregateStatFromReqCtx_eq]
  simp only [h, bmStat.IncrReq, bmStat.IncrBadStatusCode]
  repeat' split <;> try simp_all

theorem agg_errCount (s : bmStat) (o : reqResult) (d : String) :
    (aggregateStatFromReqCtx s o).1.errCount d =
      s.errCount d +
        (match o.err with
          | some e => if d = e then 1 else 0
          | none => 0) := by
  cases ho : o.err with
  | none => simp [bmStat.errCount, agg_errs_none s o ho]
  | some e =>
      simp only [bmStat.errCount, agg_errs_some s o e ho, Option.getD_some]
      rw [cntL_bumpList]

theorem agg_highest (s : bmStat) (o : reqResult) :
    (aggregateStatFromReqCtx s o).1.latency.highest = s.latency.highest := by
  rw [aggregateStatFromReqCtx_eq]
  cases ho : o.err <;>
    simp only [bmStat.IncrReq, bmStat.AddErr, bmStat.IncrBadStatusCode] <;>
    repeat' split <;> try simp_all

theorem agg_values (s : bmStat) (o : reqResult) :
    (aggregateStatFromReqCtx s o).1.latency.values =
      if 0 ≤ o.time ∧ o.time ≤ s.latency.highest then o.time :: s.latency.values
      else s.latency.values := by
  rw [aggregateStatFromReqCtx_eq]
  cases ho : o.err <;>
    simp only [bmStat.IncrReq, bmStat.AddErr, bmStat.IncrBadStatusCode] <;>
    repeat' split <;> try simp_all

theorem agg_warning (s : bmStat) (o : reqResult) :
    (aggregateStatFromReqCtx s o).2 =
      if 0 ≤ o.time ∧ o.time ≤ s.latency.highest then none
      else some ("value outside of histogram range: " ++ toString o.time) := by
  rw [aggregateStatFromReqCtx_eq]
  cases ho : o.err <;>
    simp only [bmStat.IncrReq, bmStat.AddErr, bmStat.IncrBadStatusCode] <;>
    repeat' split <;> try simp_all

theorem agg_binCount (s : bmStat) (o : reqResult) (v : Int) :
    (aggregateStatFromReqCtx s o).1.latency.binCount v =
      s.latency.binCount v +
        (if (0 ≤ o.time ∧ o.time ≤ s.latency.highest) ∧ o.time = v then 1
         else 0) := by
  simp only [Histogram.binCount, agg_values]
  by_cases hr : 0 ≤ o.time ∧ o.time ≤ s.latency.highest
  · by_cases hv : o.time = v
    · subst hv
      simp [hr, List.count_cons]
    · simp [hr, hv, List.count_cons]
  · simp [hr]

theorem agg_errSum (s : bmStat) (o : reqResult) :
    (aggregateStatFromReqCtx s o).1.errSum =
      s.errSum + (if o.err.isSome then 1 else 0) := by
  cases ho : o.err with
  | none => simp [bmStat.errSum, agg_errs_none s o ho, ho]
  | some e =>
      simp only [bmStat.errSum, agg_errs_some s o e ho, Option.getD_some,
        Option.isSome_some, if_pos]
      rw [errSumL_bumpList]

theorem merge_reqs (a b : bmStat) : (a.Merge b).reqs = a.reqs + b.reqs := by
  cases hb : b.errs <;> simp [bmStat.Merge, hb]

theorem merge_bad (a b : bmStat) :
    (a.Merge b).badStatusCode = a.badStatusCode + b.badStatusCode := by
  cases hb : b.errs <;> simp [bmStat.Merge, hb]

theorem merge_highest (a b : bmStat) :
    (a.Merge b).latency.highest = a.latency.highest := by
  cases hb : b.errs <;> simp [bmStat.Merge, hb, Histogram.mergeHist]

theorem merge_values (a b : bmStat) :
    (a.Merge b).latency.values = a.latency.values ++ b.latency.values := by
  cases hb : b.errs <;> simp [bmStat.Merge, hb, Histogram.mergeHist]

theorem merge_binCount (a b : bmStat) (v : Int) :
    (a.Merge b).latency.binCount v =
      a.latency.binCount v + b.latency.binCount v := by
  simp [Histogram.binCount, merge_values, List.count_append]

theorem merge_errs (a b : bmStat) :
    (a.Merge b).errs =
      match b.errs with
      | none => a.errs
      | some m => some (mergeErrList (a.errs.getD []) m) := by
  cases hb : b.errs <;> simp [bmStat.Merge, hb]

theorem merge_errCount_sum (a b : bmStat) (d : String) :
    (a.Merge b).errCount d =
      a.errCount d + sumContrib (b.errs.getD []) d := by
  cases hb : b.errs with
  | none => simp [bmStat.errCount, merge_errs, hb, sumContrib]
  | some m =>
      simp only [bmStat.errCount, merge_errs, hb, Option.getD_some]
      rw [cntL_mergeErrList]

theorem merge_errCount (a b : bmStat) (d : String)
    (hbn : (keysL (b.errs.getD [])).Nodup) :
    (a.Merge b).errCount d = a.errCount d + b.errCount d := by
  rw [merge_errCount_sum, sumContrib_eq_cntL _ hbn]
  rfl

theorem merge_errSum (a b : bmStat) :
    (a.Merge b).errSum = a.errSum + b.errSum := by
  cases hb : b.errs with
  | none => simp [bmStat.errSum, merge_errs, hb, errSumL]
  | some m =>
      simp only [bmStat.errSum, merge_errs, hb, Option.getD_some]
      rw [errSumL_mergeErrList]

theorem merge_errs_nodup (a b : bmStat)
    (ha : (keysL (a.errs.getD [])).Nodup)
    (hb : (keysL (b.errs.getD [])).Nodup) :
    (keysL ((a.Merge b).errs.getD [])).Nodup := by
  cases hbe : b.errs with
  | none => simpa [merge_errs, hbe] using ha
  | some m =>
      simp only [merge_errs, hbe, Option.getD_some]
      exact nodup_keysL_mergeErrList m _ ha

theorem foldl_agg_reqs (l : List reqResult) :
    ∀ s : bmStat,
      (l.foldl (fun s o => (aggregateStatFromReqCtx s o).1) s).reqs =
        s.reqs + l.length := by
  induction l with
  | nil => intro s; simp
  | cons o rest ih =>
      intro s
      simp only [List.foldl_cons, List.length_cons]
      rw [ih, agg_reqs]
      push_cast
      ring

theorem foldl_agg_bad (l : List reqResult) :
    ∀ s : bmStat,
      (l.foldl (fun s o => (aggregateStatFromReqCtx s o).1) s).badStatusCode =
        s.badStatusCode +
          l.countP (fun o => o.err.isNone && decide (badStatus o.statusCode)) := by
  induction l with
  | nil => intro s; simp
  | cons o rest ih =>
      intro s
      simp only [List.foldl_cons, List.countP_cons]
      rw [ih, agg_bad]
      cases ho : o.err with
      | none =>
          by_cases hbs : badStatus o.statusCode
          · simp [ho, hbs]; push_cast; ring
          · simp [ho, hbs]
      | some e => simp [ho]

theorem foldl_agg_errCount (l : List reqResult) (d : String) :
    ∀ s : bmStat,
      (l.foldl (fun s o => (aggregateStatFromReqCtx s o).1) s).errCount d =
        s.errCount d + l.countP (fun o => o.err == some d) := by
  induction l with
  | nil => intro s; simp
  | cons o rest ih =>
      intro s
      simp only [List.foldl_cons, List.countP_cons]
      rw [ih, agg_errCount]
      cases ho : o.err with
      | none => simp [ho]
      | some e =>
          by_cases hd : d = e
          · subst hd; simp [ho]; ring
          · have : ¬ e = d := fun hh => hd hh.symm
            simp [ho, hd, this]

theorem foldl_agg_errSum (l : List reqResult) :
    ∀ s : bmStat,
      (l.foldl (fun s o => (aggregateStatFromReqCtx s o).1) s).errSum =
        s.errSum + l.countP (fun o => o.err.isSome) := by
  induction l with
  | nil => intro s; simp
  | cons o rest ih =>
      intro s
      simp only [List.foldl_cons, List.countP_cons]
      rw [ih, agg_errSum]
      cases ho : o.err with
      | none => simp [ho]
      | some e => simp [ho]; ring

theorem foldl_agg_highest (l : List reqResult) :
    ∀ s : bmStat,
      (l.foldl (fun s o => (aggregateStatFromReqCtx s o).1) s).latency.highest =
        s.latency.highest := by
  induction l with
  | nil => intro s; simp
  | cons o rest ih =>
      intro s
      simp only [List.foldl_cons]
      rw [ih, agg_highest]

theorem foldl_agg_binCount (l : List reqResult) (D : Int) (v : Int) :
    ∀ s : bmStat, s.latency.highest = D →
      (l.foldl (fun s o => (aggregateStatFromReqCtx s o).1) s).latency.binCount v =
        s.latency.binCount v +
          l.countP
            (fun o => decide (0 ≤ o.time ∧ o.time ≤ D) && (o.time == v)) := by
  induction l with
  | nil => intro s _; simp
  | cons o rest ih =>
      intro s hs
      subst hs
      simp only [List.foldl_cons, List.countP_cons]
      rw [ih _ (agg_highest s o), agg_binCount]
      by_cases hr : 0 ≤ o.time ∧ o.time ≤ s.latency.highest
      · by_cases hv : o.time = v
        · subst hv
          simp [hr]
          ring
        · simp [hr, hv]
      · simp [hr]

theorem foldl_agg_nodup (l : List reqResult) :
    ∀ s : bmStat, (keysL (s.errs.getD [])).Nodup →
      (keysL
        ((l.foldl (fun s o => (aggregateStatFromReqCtx s o).1) s).errs.getD [])).Nodup := by
  induction l with
  | nil => intro s hs; simpa using hs
  | cons o rest ih =>
      intro s hs
      simp only [List.foldl_cons]
      refine ih _ ?_
      cases ho : o.err with
      | none => simpa [agg_errs_none s o ho] using hs
      | some e =>
          simp only [agg_errs_some s o e ho, Option.getD_some]
          exact nodup_keysL_bumpList _ e hs

theorem buildStat_def (D : Int) (l : List reqResult) :
    buildStat D l =
      l.foldl (fun s o => (aggregateStatFromReqCtx s o).1) (newBmStat D) := rfl

theorem buildStat_nodup (D : Int) (l : List reqResult) :
    (keysL ((buildStat D l).errs.getD [])).Nodup := by
  rw [buildStat_def]
  exact foldl_agg_nodup l (newBmStat D) (by simp [newBmStat, keysL])

theorem errSumL_pos (m : List (String × Nat)) (hne : m ≠ [])
    (hpos : ∀ p ∈ m, 1 ≤ p.2) : 1 ≤ errSumL m := by
  cases m with
  | nil => exact absurd rfl hne
  | cons p rest =>
      have h1 : 1 ≤ p.2 := hpos p (List.mem_cons_self _ _)
      simp only [errSumL, List.map_cons, List.sum_cons]
      omega

theorem shape_to_iff (s : bmStat)
    (hshape : s.errs = none ∨
      ∃ m, s.errs = some m ∧ m ≠ [] ∧ ∀ p ∈ m, 1 ≤ p.2) :
    (s.printErrShown = true ↔ 1 ≤ s.errSum) := by
  rcases hshape with h | ⟨m, hm, hne, hpos⟩
  · simp [bmStat.printErrShown, bmStat.errSum, h, errSumL]
  · simp only [bmStat.printErrShown, bmStat.errSum, hm, Option.isSome_some,
      Option.getD_some, true_iff]
    exact errSumL_pos m hne hpos

/-- Stats reachable in a benchmark run: the fresh stat of a connection
worker, stats extended by the aggregation loop on completed outcomes, and
merges of two reachable stats (as `printStats` performs at the end). -/
inductive ReachableBm (D : Int) : bmStat → Prop where
  | base : ReachableBm D (newBmStat D)
  | agg (s : bmStat) (o : reqResult) :
      ReachableBm D s → ReachableBm D ((aggregateStatFromReqCtx s o).1)
  | merge (s t : bmStat) :
      ReachableBm D s → ReachableBm D t → ReachableBm D (s.Merge t)

theorem reachable_inv (D : Int) (s : bmStat) (h : ReachableBm D s) :
    s.badStatusCode + (s.errSum : Int) ≤ s.reqs ∧
      (s.errs = none ∨
        ∃ m, s.errs = some m ∧ m ≠ [] ∧ ∀ p ∈ m, 1 ≤ p.2) := by
  induction h with
  | base => simp [newBmStat, bmStat.errSum, errSumL]
  | agg s o hs ih =>
      have hr := agg_reqs s o
      have hb := agg_bad s o
      have he := agg_errSum s o
      constructor
      · rw [hr, hb, he]
        have iha := ih.1
        cases ho : o.err with
        | none =>
            by_cases hbs : badStatus o.statusCode
            · rw [if_pos ⟨rfl, hbs⟩, if_neg (by simp)]
              push_cast
              omega
            · rw [if_neg (by rintro ⟨_, hh⟩; exact hbs hh),
                if_neg (by simp)]
              push_cast
              omega
        | some e =>
            rw [if_neg (by simp), if_pos (by simp)]
            push_cast
            omega
      · cases ho : o.err with
        | none =>
            rw [agg_errs_none s o ho]
            exact ih.2
        | some e =>
            right
            refine ⟨bumpList (s.errs.getD []) e, agg_errs_some s o e ho,
              bumpList_ne_nil _ e, ?_⟩
            apply bumpList_entries_pos
            rcases ih.2 with hnone | ⟨m, hm, _, hpos⟩
            · simp [hnone]
            · simpa [hm] using hpos
  | merge s t hs ht ihs iht =>
      constructor
      · rw [merge_reqs, merge_bad, merge_errSum]
        push_cast
        omega
      · rw [merge_errs]
        cases hte : t.errs with
        | none => exact ihs.2
        | some m =>
            right
            rcases iht.2 with hnone | ⟨m', hm', hne', hpos'⟩
            · rw [hte] at hnone; exact absurd hnone (by simp)
            · rw [hte] at hm'
              injection hm' with hmm
              subst hmm
              refine ⟨mergeErrList (s.errs.getD []) m, rfl,
                mergeErrList_ne_nil m _ (Or.inr hne'), ?_⟩
              apply mergeErrList_entries_pos m _ ?_ hpos'
              rcases ihs.2 with hsnone | ⟨ms, hms, _, hposs⟩
              · simp [hsnone]
              · simpa [hms] using hposs

/-- C1: `aggregateStatFromReqCtx` increments `requestCount` unconditionally;
an outcome carrying an error increments only the bucket keyed by the
error's textual description (so two distinct errors with equal
descriptions share one bucket — witnessed by the double-aggregation
conjunct) and never touches `badStatusCode`; an error-free outcome leaves
the error map untouched and increments `badStatusCode` exactly when the
status code is < 200 or >= 400. -/
theorem claimC1_aggregate_classification (s : bmStat) (o : reqResult) :
    (aggregateStatFromReqCtx s o).1.reqs = s.reqs + 1
    ∧ (∀ e, o.err = some e →
        (aggregateStatFromReqCtx s o).1.errCount e = s.errCount e + 1
        ∧ (aggregateStatFromReqCtx s o).1.badStatusCode = s.badStatusCode
        ∧ ∀ d, d ≠ e →
            (aggregateStatFromReqCtx s o).1.errCount d = s.errCount d)
    ∧ (o.err = none →
        (aggregateStatFromReqCtx s o).1.errs = s.errs
        ∧ ((aggregateStatFromReqCtx s o).1.badStatusCode = s.badStatusCode + 1
            ↔ badStatus o.statusCode)
        ∧ ((aggregateStatFromReqCtx s o).1.badStatusCode = s.badStatusCode
            ↔ ¬ badStatus o.statusCode))
    ∧ (∀ e o2, o.err = some e → o2.err = some e →
        (aggregateStatFromReqCtx (aggregateStatFromReqCtx s o).1 o2).1.errCount e
          = s.errCount e + 2) := by
  refine ⟨agg_reqs s o, ?_, ?_, ?_⟩
  · intro e he
    refine ⟨?_, ?_, ?_⟩
    · rw [agg_errCount]; simp [he]
    · rw [agg_bad]; simp [he]
    · intro d hd
      rw [agg_errCount]; simp [he, hd]
  · intro he
    refine ⟨agg_errs_none s o he, ?_, ?_⟩
    · rw [agg_bad]
      by_cases hbs : badStatus o.statusCode
      · simp [he, hbs]
      · simp [he, hbs]
    · rw [agg_bad]
      by_cases hbs : badStatus o.statusCode
      · simp [he, hbs]
      · simp [he, hbs]
  · intro e o2 he he2
    rw [agg_errCount, agg_errCount]
    simp [he, he2]

/-- Witness for C1 at a concrete stat and outcomes: an error outcome
increments its description bucket and leaves `badStatusCode` alone, and two
errors with the same description land in the same bucket. -/
theorem claimC1_witness :
    (aggregateStatFromReqCtx (newBmStat 10) ⟨some "boom", 0, 1⟩).1.errCount "boom"
        = (newBmStat 10).errCount "boom" + 1
    ∧ (aggregateStatFromReqCtx (newBmStat 10) ⟨some "boom", 0, 1⟩).1.badStatusCode
        = (newBmStat 10).badStatusCode
    ∧ (aggregateStatFromReqCtx
        (aggregateStatFromReqCtx (newBmStat 10) ⟨some "boom", 0, 1⟩).1
        ⟨some "boom", 7, 2⟩).1.errCount "boom"
        = (newBmStat 10).errCount "boom" + 2 := by
  have h := claimC1_aggregate_classification (newBmStat 10) ⟨some "boom", 0, 1⟩
  exact ⟨(h.2.1 "boom" rfl).1, (h.2.1 "boom" rfl).2.1,
    h.2.2.2 "boom" ⟨some "boom", 7, 2⟩ rfl rfl⟩

/-- C10: every stat reachable from `newBmStat` by aggregation and merge
keeps `badStatusCode` plus the total of the per-description error counts
at most `requestCount`, keeps the error map nil or non-empty with every
count at least 1, and therefore shows the report's `Errors:` section
exactly when at least one error was recorded. -/
theorem claimC10_reachable_invariant (D : Int) (s : bmStat)
    (h : ReachableBm D s) :
    s.badStatusCode + (s.errSum : Int) ≤ s.reqs
    ∧ (s.errs = none ∨
        ∃ m, s.errs = some m ∧ m ≠ [] ∧ ∀ p ∈ m, 1 ≤ p.2)
    ∧ (s.printErrShown = true ↔ 1 ≤ s.errSum) :=
  ⟨(reachable_inv D s h).1, (reachable_inv D s h).2,
    shape_to_iff s (reachable_inv D s h).2⟩

/-- Witness for C10 on the concrete reachable stat obtained by aggregating
one error outcome into a fresh stat. -/
theorem claimC10_witness :
    (aggregateStatFromReqCtx (newBmStat 7) ⟨some "oops", 0, 1⟩).1.badStatusCode
        + ((aggregateStatFromReqCtx (newBmStat 7) ⟨some "oops", 0, 1⟩).1.errSum : Int)
        ≤ (aggregateStatFromReqCtx (newBmStat 7) ⟨some "oops", 0, 1⟩).1.reqs
    ∧ ((aggregateStatFromReqCtx (newBmStat 7) ⟨some "oops", 0, 1⟩).1.errs = none ∨
        ∃ m, (aggregateStatFromReqCtx (newBmStat 7) ⟨some "oops", 0, 1⟩).1.errs
          = some m ∧ m ≠ [] ∧ ∀ p ∈ m, 1 ≤ p.2)
    ∧ ((aggregateStatFromReqCtx (newBmStat 7) ⟨some "oops", 0, 1⟩).1.printErrShown
          = true
        ↔ 1 ≤ (aggregateStatFromReqCtx (newBmStat 7) ⟨some "oops", 0, 1⟩).1.errSum) :=
  claimC10_reachable_invariant 7 _ (ReachableBm.agg _ _ ReachableBm.base)

/-- C2: merging per-connection stats is associative and commutative up to
value equality of the reported statistics, and merging two stats built from
outcome lists agrees with building one stat from the concatenated list; the
spec's concrete scenario (5 requests / 1 bad status merged with 3 requests /
0 bad statuses gives 8 / 1) is included at the end. -/
theorem claimC2_merge_algebra (D : Int) (xs ys zs : List reqResult) :
    statEquiv ((buildStat D xs).Merge (buildStat D ys)) (buildStat D (xs ++ ys))
    ∧ statEquiv ((buildStat D xs).Merge (buildStat D ys))
        ((buildStat D ys).Merge (buildStat D xs))
    ∧ statEquiv (((buildStat D xs).Merge (buildStat D ys)).Merge (buildStat D zs))
        ((buildStat D xs).Merge ((buildStat D ys).Merge (buildStat D zs)))
    ∧ ((buildStat 10 [⟨none, 200, 0⟩, ⟨none, 200, 0⟩, ⟨none, 200, 0⟩,
          ⟨none, 200, 0⟩, ⟨none, 500, 0⟩]).Merge
        (buildStat 10 [⟨none, 200, 0⟩, ⟨none, 200, 0⟩, ⟨none, 200, 0⟩])).reqs = 8
    ∧ ((buildStat 10 [⟨none, 200, 0⟩, ⟨none, 200, 0⟩, ⟨none, 200, 0⟩,
          ⟨none, 200, 0⟩, ⟨none, 500, 0⟩]).Merge
        (buildStat 10 [⟨none, 200, 0⟩, ⟨none, 200, 0⟩,
          ⟨none, 200, 0⟩])).badStatusCode = 1 := by
  refine ⟨⟨?_, ?_, ?_, ?_⟩, ⟨?_, ?_, ?_, ?_⟩, ⟨?_, ?_, ?_, ?_⟩, ?_, ?_⟩
  · rw [merge_reqs]
    simp only [buildStat_def, foldl_agg_reqs, List.length_append]
    simp [newBmStat]
  · rw [merge_bad]
    simp only [buildStat_def, foldl_agg_bad, List.countP_append]
    simp [newBmStat]
  · intro d
    rw [merge_errCount _ _ _ (buildStat_nodup D ys)]
    simp only [buildStat_def, foldl_agg_errCount, List.countP_append]
    simp [newBmStat, bmStat.errCount, cntL, lookupL]
  · intro v
    rw [merge_binCount]
    rw [buildStat_def, buildStat_def, buildStat_def]
    rw [foldl_agg_binCount xs D v (newBmStat D) rfl,
      foldl_agg_binCount ys D v (newBmStat D) rfl,
      foldl_agg_binCount (xs ++ ys) D v (newBmStat D) rfl,
      List.countP_append]
    simp [newBmStat, Histogram.binCount]
  · rw [merge_reqs, merge_reqs]
    ring
  · rw [merge_bad, merge_bad]
    ring
  · intro d
    rw [merge_errCount _ _ _ (buildStat_nodup D ys),
      merge_errCount _ _ _ (buildStat_nodup D xs)]
    omega
  · intro v
    rw [merge_binCount, merge_binCount]
    omega
  · rw [merge_reqs, merge_reqs, merge_reqs, merge_reqs]
    ring
  · rw [merge_bad, merge_bad, merge_bad, merge_bad]
    ring
  · intro d
    rw [merge_errCount _ _ _ (buildStat_nodup D zs),
      merge_errCount _ _ _ (buildStat_nodup D ys),
      merge_errCount _ _ _
        (merge_errs_nodup _ _ (buildStat_nodup D ys) (buildStat_nodup D zs)),
      merge_errCount _ _ _ (buildStat_nodup D zs)]
    omega
  · intro v
    rw [merge_binCount, merge_binCount, merge_binCount, merge_binCount]
    omega
  · decide
  · decide

/-- Embeds `time.Since(reqStart)` as used in the slot body of
`runReqsInParallel`: the difference of two readings of Go's monotonic
clock, where the later reading is at least the earlier one. -/
def timeSince (start now : Int) : Int :=
  now - start

/-- C4: the measured elapsed value is nonnegative (monotonic clock), every
completed attempt submits its elapsed value to the latency histogram, and a
histogram rejection only produces a warning: the attempt stays counted in
`requestCount` and only the latency sample is lost. -/
theorem claimC4_latency_always_recorded (s : bmStat) (o : reqResult)
    (start now : Int) :
    (start ≤ now → 0 ≤ timeSince start now)
    ∧ (aggregateStatFromReqCtx s o).1.reqs = s.reqs + 1
    ∧ (0 ≤ o.time ∧ o.time ≤ s.latency.highest →
        (aggregateStatFromReqCtx s o).1.latency.values
            = o.time :: s.latency.values
        ∧ (aggregateStatFromReqCtx s o).2 = none)
    ∧ (¬ (0 ≤ o.time ∧ o.time ≤ s.latency.highest) →
        (aggregateStatFromReqCtx s o).1.latency.values = s.latency.values
        ∧ (aggregateStatFromReqCtx s o).2
            = some ("value outside of histogram range: " ++ toString o.time)) := by
  refine ⟨?_, agg_reqs s o, ?_, ?_⟩
  · intro h
    simp only [timeSince]
    omega
  · intro hin
    rw [agg_values, agg_warning]
    simp [hin]
  · intro hout
    rw [agg_values, agg_warning]
    simp [hout]

/-- Witness for C4: an in-range sample is recorded with no warning, an
out-of-range sample is rejected with a warning while the attempt is still
counted. -/
theorem claimC4_witness :
    0 ≤ timeSince 2 5
    ∧ (aggregateStatFromReqCtx (newBmStat 5) ⟨none, 200, 3⟩).1.latency.values
        = 3 :: (newBmStat 5).latency.values
    ∧ (aggregateStatFromReqCtx (newBmStat 5) ⟨none, 200, 3⟩).2 = none
    ∧ (aggregateStatFromReqCtx (newBmStat 5) ⟨none, 200, 99⟩).1.reqs
        = (newBmStat 5).reqs + 1
    ∧ (aggregateStatFromReqCtx (newBmStat 5) ⟨none, 200, 99⟩).1.latency.values
        = (newBmStat 5).latency.values
    ∧ (aggregateStatFromReqCtx (newBmStat 5) ⟨none, 200, 99⟩).2
        = some ("value outside of histogram range: " ++ toString (99 : Int)) := by
  have h1 := claimC4_latency_always_recorded (newBmStat 5) ⟨none, 200, 3⟩ 2 5
  have h2 := claimC4_latency_always_recorded (newBmStat 5) ⟨none, 200, 99⟩ 2 5
  exact ⟨h1.1 (by decide), (h1.2.2.1 (by decide)).1, (h1.2.2.1 (by decide)).2,
    h2.2.1, (h2.2.2.2 (by decide)).1, (h2.2.2.2 (by decide)).2⟩

/-- Embeds the external hdrhistogram `Bar` returned by `Distribution()`
(fields `From`, `To`, `Count`), as consumed by `bmStat.PrintLatency`. -/
structure Bar where
  From : Int
  To : Int
  Count : Int
  deriving Repr, DecidableEq

/-- Embeds the counting loop of `bmStat.PrintLatency` (form.go): walk the
distribution bars in order, break at the first bar whose `From` reaches
`up`, and add the count of every remaining bar whose `From` is at least
`low`. -/
def stdevBarCount : List Bar → Int → Int → Int
  | [], _, _ => 0
  | b :: rest, up, low =>
      if b.From ≥ up then 0
      else (if b.From ≥ low then b.Count else 0) + stdevBarCount rest up low

/-- Truncation toward zero of a rational, embedding Go's `int64(f)`
conversion applied to `avg + stdev` and `avg - stdev` in `PrintLatency`. -/
def truncQ (q : ℚ) : Int :=
  if 0 ≤ q then ⌊q⌋ else ⌈q⌉

/-- Embeds `up := int64(avg + stdev)` of `bmStat.PrintLatency`. -/
def printLatencyUp (avg stdev : ℚ) : Int :=
  truncQ (avg + stdev)

/-- Embeds `low := int64(avg - stdev)` of `bmStat.PrintLatency`. -/
def printLatencyLow (avg stdev : ℚ) : Int :=
  truncQ (avg - stdev)

/-- Embeds the rate computation of `bmStat.PrintLatency`:
`inStdevRate = float64(count*10000/bs.reqs) / 100` under the
`bs.reqs != 0` guard, with Go's truncating integer division. -/
def inStdevRate (count reqs : Int) : ℚ :=
  if reqs ≠ 0 then ((Int.tdiv (count * 10000) reqs : ℤ) : ℚ) / 100 else 0

theorem stdevBarCount_nonneg (bars : List Bar) (up low : Int)
    (h : ∀ b ∈ bars, 0 ≤ b.Count) : 0 ≤ stdevBarCount bars up low := by
  induction bars with
  | nil => simp [stdevBarCount]
  | cons b rest ih =>
      simp only [stdevBarCount]
      by_cases hup : b.From ≥ up
      · simp [hup]
      · rw [if_neg hup]
        have h1 := ih (fun x hx => h x (List.mem_cons_of_mem _ hx))
        by_cases hlow : b.From ≥ low
        · rw [if_pos hlow]
          exact add_nonneg (h b (List.mem_cons_self _ _)) h1
        · rw [if_neg hlow]
          simpa using h1

theorem stdevBarCount_eq_filter_sum (bars : List Bar) (up low : Int)
    (hsorted : bars.Pairwise (fun a b => a.From ≤ b.From)) :
    stdevBarCount bars up low
      = ((bars.filter (fun b =>
          decide (low ≤ b.From) && decide (b.From < up))).map Bar.Count).sum := by
  induction bars with
  | nil => rfl
  | cons b rest ih =>
      rcases List.pairwise_cons.1 hsorted with ⟨hb, hrest⟩
      simp only [stdevBarCount]
      by_cases hup : b.From ≥ up
      · rw [if_pos hup]
        have hfilter :
            (b :: rest).filter
              (fun x => decide (low ≤ x.From) && decide (x.From < up)) = [] := by
          rw [List.filter_eq_nil_iff]
          intro x hx
          rcases List.mem_cons.1 hx with hx1 | hx1
          · subst hx1
            simp only [Bool.and_eq_true, decide_eq_true_eq, not_and]
            intro _
            omega
          · have hxf : b.From ≤ x.From := hb x hx1
            simp only [Bool.and_eq_true, decide_eq_true_eq, not_and]
            intro _
            omega
        rw [hfilter]
        rfl
      · rw [if_neg hup]
        have hup' : b.From < up := lt_of_not_ge hup
        by_cases hlow : b.From ≥ low
        · rw [if_pos hlow]
          rw [List.filter_cons_of_pos (by simp [hlow, hup'])]
          simp only [List.map_cons, List.sum_cons]
          rw [ih hrest]
        · rw [if_neg hlow]
          rw [List.filter_cons_of_neg (by simp [hlow])]
          rw [ih hrest]
          simp

theorem inStdevRate_eq_truncated_percentage (count reqs : Int)
    (hc : 0 ≤ count) (hr : 0 < reqs) :
    inStdevRate count reqs
      = (⌊(((count : ℚ) / (reqs : ℚ)) * 100) * 100⌋ : ℚ) / 100 := by
  have hne : reqs ≠ 0 := hr.ne'
  rw [inStdevRate, if_pos hne]
  have htdiv : (count * 10000).tdiv reqs = (count * 10000) / reqs :=
    Int.div_eq_ediv (by positivity) hr.le
  have hq : ((count : ℚ) / (reqs : ℚ)) * 100 * 100
      = ((count * 10000 : ℤ) : ℚ) / ((reqs : ℤ) : ℚ) := by
    push_cast
    field_simp
    ring
  have h1 : ((reqs.toNat : ℕ) : ℤ) = reqs := Int.toNat_of_nonneg hr.le
  have hfloor : ⌊((count * 10000 : ℤ) : ℚ) / ((reqs : ℤ) : ℚ)⌋
      = (count * 10000) / reqs := by
    rw [← h1, ← Rat.floor_intCast_div_natCast (count * 10000) reqs.toNat]
    norm_cast
  rw [hq, hfloor, htdiv]

/-- C6: with the distribution bars sorted by left edge (as the external
histogram returns them), the plus-minus-stdev loop of `PrintLatency` counts
exactly the bars whose `From` lies in the half-open interval
`[int64(mean-stdev), int64(mean+stdev))`, and the printed rate is that
count over `requestCount`, as a percentage truncated to two decimals. -/
theorem claimC6_stdev_percentage (bars : List Bar) (avg stdev : ℚ)
    (reqs : Int)
    (hsorted : bars.Pairwise (fun a b => a.From ≤ b.From))
    (hcounts : ∀ b ∈ bars, 0 ≤ b.Count)
    (hreqs : 0 < reqs) :
    stdevBarCount bars (printLatencyUp avg stdev) (printLatencyLow avg stdev)
      = ((bars.filter (fun b =>
          decide (printLatencyLow avg stdev ≤ b.From)
            && decide (b.From < printLatencyUp avg stdev))).map Bar.Count).sum
    ∧ inStdevRate
        (stdevBarCount bars (printLatencyUp avg stdev)
          (printLatencyLow avg stdev)) reqs
      = (⌊(((stdevBarCount bars (printLatencyUp avg stdev)
              (printLatencyLow avg stdev) : ℚ) / (reqs : ℚ)) * 100) * 100⌋ : ℚ)
          / 100 :=
  ⟨stdevBarCount_eq_filter_sum bars _ _ hsorted,
    inStdevRate_eq_truncated_percentage _ reqs
      (stdevBarCount_nonneg bars _ _ hcounts) hreqs⟩

/-- Witness for C6 on a concrete sorted three-bar distribution with
`mean = 3/2`, `stdev = 1/2` and 8 requests: the loop keeps only the middle
bar and the rate is 37.5 percent. -/
theorem claimC6_witness :
    stdevBarCount [⟨0, 1, 2⟩, ⟨1, 2, 3⟩, ⟨2, 3, 1⟩]
        (printLatencyUp (3/2) (1/2)) (printLatencyLow (3/2) (1/2))
      = (([⟨0, 1, 2⟩, ⟨1, 2, 3⟩, ⟨2, 3, 1⟩] : List Bar).filter (fun b =>
          decide (printLatencyLow (3/2) (1/2) ≤ b.From)
            && decide (b.From < printLatencyUp (3/2) (1/2)))
          |>.map Bar.Count).sum
    ∧ inStdevRate
        (stdevBarCount [⟨0, 1, 2⟩, ⟨1, 2, 3⟩, ⟨2, 3, 1⟩]
          (printLatencyUp (3/2) (1/2)) (printLatencyLow (3/2) (1/2))) 8
      = (⌊(((stdevBarCount [⟨0, 1, 2⟩, ⟨1, 2, 3⟩, ⟨2, 3, 1⟩]
              (printLatencyUp (3/2) (1/2))
              (printLatencyLow (3/2) (1/2)) : ℚ) / ((8 : Int) : ℚ)) * 100) * 100⌋ : ℚ)
          / 100 :=
  claimC6_stdev_percentage [⟨0, 1, 2⟩, ⟨1, 2, 3⟩, ⟨2, 3, 1⟩] (3/2) (1/2) 8
    (by decide) (by decide) (by decide)

/-- Embeds the fields of `quickConfig` (quick.go) involved in enabling and
validating benchmark mode. -/
structure QuickCfg where
  bmDuration : Int
  bmConn : Int
  bmReqPerConn : Int
  bmEnabled : Bool
  dumpCookie : String
  outFilename : String
  headersIncluded : Bool
  headersOnly : Bool
  noRedirect : Bool
  insecure : Bool
  maxTime : Int
  deriving Repr, DecidableEq

/-- Embeds the `if config.bmEnabled { ... }` validation block of `checkArgs`
(quick.go): reject `-dump-cookie` and output customization in benchmark
mode, force `noRedirect` and `insecure`, default `maxTime` to the benchmark
duration. -/
def bmValidate (cfg : QuickCfg) : Except String QuickCfg :=
  if cfg.bmEnabled then
    if cfg.dumpCookie ≠ "" then
      .error "unsupport option in benchmark mode"
    else if cfg.outFilename ≠ "" ∨ cfg.headersIncluded ∨ cfg.headersOnly then
      .error "output customization is not allowed in benchmark mode"
    else
      .ok { cfg with
        noRedirect := true
        insecure := true
        maxTime := (if cfg.maxTime = 0 then cfg.bmDuration else cfg.maxTime) }
  else
    .ok cfg

/-- Embeds the benchmark-mode fragment of `checkArgs` (quick.go): set
`bmEnabled` exactly when `bmConn > 0 && bmDuration > 0 && bmReqPerConn > 0`,
then run the benchmark-mode validations. -/
def checkArgsBmPhase (cfg : QuickCfg) : Except String QuickCfg :=
  bmValidate
    (if 0 < cfg.bmConn ∧ 0 < cfg.bmDuration ∧ 0 < cfg.bmReqPerConn then
      { cfg with bmEnabled := true }
    else cfg)

/-- The two execution modes dispatched by `run` (quick.go). -/
inductive RunMode where
  | normal
  | benchmark
  deriving Repr, DecidableEq

/-- Embeds the dispatch in `run` (quick.go): benchmark mode iff
`config.bmEnabled`. -/
def runMode (cfg : QuickCfg) : RunMode :=
  if cfg.bmEnabled then .benchmark else .normal

theorem bmValidate_preserves_bmEnabled (c c2 : QuickCfg)
    (h : bmValidate c = .ok c2) : c2.bmEnabled = c.bmEnabled := by
  unfold bmValidate at h
  split at h
  · split at h
    · exact absurd h (by simp)
    · split at h
      · exact absurd h (by simp)
      · injection h with h3
        subst h3
        rfl
  · injection h with h3
    subst h3
    rfl

/-- C7: after `checkArgs` succeeds starting from a config with benchmark
mode off (the `newQuickConfig` default), the tool runs in benchmark mode
iff `bmDuration`, `bmConn` and `bmReqPerConn` are all strictly positive;
otherwise it runs in normal single-request mode. -/
theorem claimC7_benchmark_mode_iff (cfg cfg2 : QuickCfg)
    (h0 : cfg.bmEnabled = false)
    (h : checkArgsBmPhase cfg = .ok cfg2) :
    runMode cfg2 = .benchmark ↔
      (0 < cfg.bmDuration ∧ 0 < cfg.bmConn ∧ 0 < cfg.bmReqPerConn) := by
  unfold checkArgsBmPhase at h
  by_cases hc : 0 < cfg.bmConn ∧ 0 < cfg.bmDuration ∧ 0 < cfg.bmReqPerConn
  · rw [if_pos hc] at h
    have hb := bmValidate_preserves_bmEnabled _ _ h
    have : cfg2.bmEnabled = true := hb
    simp only [runMode, this, if_true]
    constructor
    · intro _
      exact ⟨hc.2.1, hc.1, hc.2.2⟩
    · intro _
      trivial
  · rw [if_neg hc] at h
    have hb := bmValidate_preserves_bmEnabled _ _ h
    rw [h0] at hb
    simp only [runMode, hb, if_false, Bool.false_eq_true]
    constructor
    · intro hh
      exact absurd hh (by simp)
    · intro hh
      exact absurd ⟨hh.2.1, hh.1, hh.2.2⟩ hc

/-- Witness for C7: a config with all three parameters positive passes the
phase and runs in benchmark mode. -/
theorem claimC7_witness :
    runMode
      { bmDuration := 5, bmConn := 2, bmReqPerConn := 3, bmEnabled := true,
        dumpCookie := "", outFilename := "", headersIncluded := false,
        headersOnly := false, noRedirect := true, insecure := true,
        maxTime := 5 } = .benchmark := by
  have h := claimC7_benchmark_mode_iff
    { bmDuration := 5, bmConn := 2, bmReqPerConn := 3, bmEnabled := false,
      dumpCookie := "", outFilename := "", headersIncluded := false,
      headersOnly := false, noRedirect := false, insecure := false,
      maxTime := 0 }
    { bmDuration := 5, bmConn := 2, bmReqPerConn := 3, bmEnabled := true,
      dumpCookie := "", outFilename := "", headersIncluded := false,
      headersOnly := false, noRedirect := true, insecure := true,
      maxTime := 5 }
    rfl rfl
  exact h.2 (by decide)

/-- Embeds the merge loop of `printStats` (form.go). `total := stats[0]`
copies a pointer, so `total.Merge(stats[i])` mutates the `bmStat` that
slot 0 points to while only reading slot `i`; the loop body is modelled as
storing the merge result back into slot 0. -/
def printStatsLoop (arr : List bmStat) (i : Nat) : List bmStat :=
  if h : i < arr.length then
    printStatsLoop
      (arr.set 0
        (bmStat.Merge (arr.get ⟨0, Nat.lt_of_le_of_lt (Nat.zero_le i) h⟩)
          (arr.get ⟨i, h⟩)))
      (i + 1)
  else
    arr
termination_by arr.length - i
decreasing_by
  simp only [List.length_set]
  omega

/-- Embeds `printStats` (form.go) at the level of the stats slice: reading
`stats[0]` panics on an empty slice (`none`); otherwise the loop merges
every later shard into slot 0 and the final slice is returned (its head is
the total that the report prints). -/
def printStats (stats : List bmStat) : Option (List bmStat) :=
  match stats with
  | [] => none
  | s :: rest => some (printStatsLoop (s :: rest) 1)

theorem printStatsLoop_spec (rest : List bmStat) :
    ∀ (k j : Nat) (t : bmStat), rest.length - j = k →
      printStatsLoop (t :: rest) (j + 1)
        = ((rest.drop j).foldl bmStat.Merge t) :: rest := by
  intro k
  induction k with
  | zero =>
      intro j t hj
      rw [printStatsLoop]
      rw [dif_neg (by simp; omega)]
      rw [List.drop_eq_nil_of_le (by omega)]
      rfl
  | succ k ih =>
      intro j t hj
      have hjlt : j < rest.length := by omega
      rw [printStatsLoop]
      rw [dif_pos (by simp; omega)]
      have hset : ((t :: rest).set 0
          (bmStat.Merge
            ((t :: rest).get ⟨0, by simp⟩)
            ((t :: rest).get ⟨j + 1, by simp; omega⟩)))
          = (bmStat.Merge t (rest.get ⟨j, hjlt⟩)) :: rest := by
        rfl
      rw [hset]
      rw [ih (j + 1) _ (by omega)]
      have hdrop : rest.drop j = rest.get ⟨j, hjlt⟩ :: rest.drop (j + 1) := by
        rw [List.drop_eq_getElem_cons hjlt]
        rfl
      rw [hdrop]
      rfl

/-- C9: `printStats` on a non-empty stats slice folds every later shard
into the first one — the head of the resulting slice is the merged total
of all shards and the later shards are returned unmodified — while an
empty slice is outside its precondition: element 0 is read
unconditionally (`none` models the panic), and any non-empty slice (as
guaranteed by `bmConn > 0`) is accepted. -/
theorem claimC9_printStats_in_place (s : bmStat) (rest stats : List bmStat) :
    printStats [] = none
    ∧ printStats (s :: rest) = some ((rest.foldl bmStat.Merge s) :: rest)
    ∧ (stats ≠ [] → (printStats stats).isSome = true) := by
  refine ⟨rfl, ?_, ?_⟩
  · show some (printStatsLoop (s :: rest) 1) = _
    rw [show (1 : Nat) = 0 + 1 from rfl,
      printStatsLoop_spec rest rest.length 0 s (by omega)]
    rfl
  · intro hne
    cases stats with
    | nil => exact absurd rfl hne
    | cons a l => simp [printStats]

/-- Witness for C9 on a concrete two-shard slice: the head of the result is
the merged total and the tail is untouched. -/
theorem claimC9_witness :
    printStats [] = none
    ∧ printStats [newBmStat 4, newBmStat 4]
        = some (([newBmStat 4].foldl bmStat.Merge (newBmStat 4)) :: [newBmStat 4])
    ∧ ([newBmStat 4, newBmStat 4] ≠ ([] : List bmStat) →
        (printStats [newBmStat 4, newBmStat 4]).isSome = true) := by
  have h := claimC9_printStats_in_place (newBmStat 4) [newBmStat 4]
    [newBmStat 4, newBmStat 4]
  exact ⟨h.1, h.2.1, h.2.2⟩

/-- Result of `fatal` (quick.go): `fmt.Fprintf(os.Stderr, "Error: "+format+"\n", ...)`
followed by `os.Exit(1)`; the process terminates before any report is
produced. -/
structure ProcExit where
  exitCode : Int
  stderrLine : String
  deriving Repr, DecidableEq

/-- Embeds `fatal` (quick.go). -/
def fatal (msg : String) : ProcExit :=
  { exitCode := 1, stderrLine := "Error: " ++ msg ++ "\n" }

/-- Either the process aborts (the `fatal` path never returns) or the slot
produces an outcome that is queued for aggregation. -/
inductive AttemptStep where
  | fatalStop (e : ProcExit)
  | outcome (r : reqResult)
  deriving Repr, DecidableEq

/-- Embeds one slot iteration of `runReqsInParallel` (form.go) up to
queueing: a `createReq` failure (e.g. the body payload file cannot be
opened) calls `fatal` immediately; an `hclient.Do` or `readResp` error is
written into the outcome's `err`; otherwise the response status code is
recorded. The elapsed time is measured on every non-fatal path. -/
def runAttempt (createReqRes : Except String Unit)
    (transport : Except String Int) (elapsed : Int) : AttemptStep :=
  match createReqRes with
  | .error e => .fatalStop (fatal e)
  | .ok _ =>
      match transport with
      | .error e => .outcome { err := some e, statusCode := 0, time := elapsed }
      | .ok code => .outcome { err := none, statusCode := code, time := elapsed }

/-- C5: a request-construction failure aborts the whole process with exit
status 1 and the error printed to stderr, producing no outcome (hence no
report); transport errors and bad statuses never reach the fatal path —
they become outcomes that the aggregation counts as data. -/
theorem claimC5_fatal_on_createReq_failure (e : String)
    (t : Except String Int) (el : Int) (s : bmStat) :
    runAttempt (.error e) t el = .fatalStop (fatal e)
    ∧ (fatal e).exitCode = 1
    ∧ (fatal e).exitCode ≠ 0
    ∧ (fatal e).stderrLine = "Error: " ++ e ++ "\n"
    ∧ (∀ msg, runAttempt (.ok ()) (.error msg) el
        = .outcome { err := some msg, statusCode := 0, time := el })
    ∧ (∀ code, runAttempt (.ok ()) (.ok code) el
        = .outcome { err := none, statusCode := code, time := el })
    ∧ (∀ pe, runAttempt (.ok ()) t el ≠ .fatalStop pe)
    ∧ (∀ msg,
        (aggregateStatFromReqCtx s
          { err := some msg, statusCode := 0, time := el }).1.reqs
          = s.reqs + 1)
    ∧ (∀ code,
        (aggregateStatFromReqCtx s
          { err := none, statusCode := code, time := el }).1.reqs
          = s.reqs + 1) := by
  refine ⟨rfl, rfl, by simp [fatal], rfl, fun msg => rfl, fun code => rfl, ?_,
    fun msg => agg_reqs s _, fun code => agg_reqs s _⟩
  intro pe
  cases t <;> simp [runAttempt]

/-- Phase of one request slot of `runReqsInParallel` (form.go). The flag
records whether the slot's current (or pending) attempt was launched
before `done` was closed, i.e. before the deadline. After completing an
attempt the slot sits at the `select`; taking the `done` branch it first
calls `reqWg.Done()` (phase `wgDoneCalled`, outcome not yet queued) and
only then sends the outcome and returns. -/
inductive SlotPhase where
  | running (before : Bool)
  | outcomeReady (before : Bool)
  | wgDoneCalled (before : Bool)
  | exited
  deriving Repr, DecidableEq

/-- Phase of the aggregation loop of `runReqsInParallel`: the main
`select` loop, then on timer `reqWg.Wait()`, then the non-blocking drain
loop, then `endloop`; external cancellation jumps to `endloop` directly. -/
inductive MainPhase where
  | loop
  | wgWaiting
  | draining
  | finished
  deriving Repr, DecidableEq

/-- Interleaving state of one connection worker: slot phases, the buffered
outcome channel `reqCtxCh` (each entry tagged with its attempt's
before-deadline flag), the `reqWg` counter, the `done` and `cancelled`
channels as flags, the main-loop phase, and counters of aggregated and
launched attempts split by before/after deadline. -/
structure WState where
  slots : List SlotPhase
  queue : List Bool
  wg : Nat
  done : Bool
  cancelled : Bool
  phase : MainPhase
  aggBefore : Nat
  aggAfter : Nat
  launchedBefore : Nat
  launchedAfter : Nat
  deriving Repr, DecidableEq

/-- Scheduler choices: which goroutine takes its next atomic step. -/
inductive Choice where
  | slotFinish (i : Nat)
  | slotSend (i : Nat)
  | slotTakeDone (i : Nat)
  | slotExitSend (i : Nat)
  | mainRecv
  | mainTimer
  | fireCancel
  | mainCancel
  | mainWgDone
  | mainDrainRecv
  | mainDrainDefault
  deriving Repr, DecidableEq

/-- One atomic step of the interleaving model of `runReqsInParallel`
(form.go), guarded by enabledness (`none` = that choice cannot run now):

* `slotFinish i`: slot `i`'s attempt completes (the `hclient.Do` /
  `readResp` / `time.Since` block finishes), outcome ready at the `select`.
* `slotSend i`: the slot's `select` takes `reqCtxCh <- ctx` (always offered
  while the buffer has room — Go picks randomly among ready cases, so this
  is possible even after `done` closed) and loops, launching a new attempt
  whose before-deadline flag is `!done`.
* `slotTakeDone i`: with `done` closed the `select` takes `<-done`:
  `reqWg.Done()` runs first; the outcome is still unsent.
* `slotExitSend i`: the slot then performs `reqCtxCh <- ctx` and returns.
* `mainRecv`: the main `select` receives an outcome and aggregates it.
* `mainTimer`: the timer fires: `close(done)`, then `reqWg.Wait()`.
* `fireCancel`: the external interrupt closes the `cancelled` channel.
* `mainCancel`: the main `select` sees `cancelled`: `close(done)` and
  `goto endloop` — no wait, no drain.
* `mainWgDone`: `reqWg.Wait()` returns once the counter is zero.
* `mainDrainRecv`: the drain loop receives a queued outcome.
* `mainDrainDefault`: the drain loop hits `default` on an empty buffer and
  reaches `endloop`. -/
def step (cap : Nat) (s : WState) : Choice → Option WState
  | .slotFinish i =>
      match s.slots.get? i with
      | some (.running b) =>
          some { s with slots := s.slots.set i (.outcomeReady b) }
      | _ => none
  | .slotSend i =>
      match s.slots.get? i with
      | some (.outcomeReady b) =>
          if s.queue.length < cap then
            some { s with
              slots := s.slots.set i (.running (!s.done))
              queue := s.queue ++ [b]
              launchedBefore := s.launchedBefore + (if s.done then 0 else 1)
              launchedAfter := s.launchedAfter + (if s.done then 1 else 0) }
          else none
      | _ => none
  | .slotTakeDone i =>
      match s.slots.get? i with
      | some (.outcomeReady b) =>
          if s.done then
            some { s with
              slots := s.slots.set i (.wgDoneCalled b)
              wg := s.wg - 1 }
          else none
      | _ => none
  | .slotExitSend i =>
      match s.slots.get? i with
      | some (.wgDoneCalled b) =>
          if s.queue.length < cap then
            some { s with
              slots := s.slots.set i .exited
              queue := s.queue ++ [b] }
          else none
      | _ => none
  | .mainRecv =>
      match s.phase, s.queue with
      | .loop, b :: rest =>
          some { s with
            queue := rest
            aggBefore := s.aggBefore + (if b then 1 else 0)
            aggAfter := s.aggAfter + (if b then 0 else 1) }
      | _, _ => none
  | .mainTimer =>
      match s.phase with
      | .loop =>
          if s.done then none
          else some { s with done := true, phase := .wgWaiting }
      | _ => none
  | .fireCancel =>
      if s.cancelled then none else some { s with cancelled := true }
  | .mainCancel =>
      match s.phase with
      | .loop =>
          if s.cancelled then
            some { s with done := true, phase := .finished }
          else none
      | _ => none
  | .mainWgDone =>
      match s.phase with
      | .wgWaiting =>
          if s.wg = 0 then some { s with phase := .draining } else none
      | _ => none
  | .mainDrainRecv =>
      match s.phase, s.queue with
      | .draining, b :: rest =>
          some { s with
            queue := rest
            aggBefore := s.aggBefore + (if b then 1 else 0)
            aggAfter := s.aggAfter + (if b then 0 else 1) }
      | _, _ => none
  | .mainDrainDefault =>
      match s.phase, s.queue with
      | .draining, [] => some { s with phase := .finished }
      | _, _ => none

/-- Runs a schedule (a sequence of scheduler choices) from a state;
`none` when some choice is not enabled. -/
def runSched (cap : Nat) : WState → List Choice → Option WState
  | s, [] => some s
  | s, c :: cs =>
      match step cap s c with
      | some s2 => runSched cap s2 cs
      | none => none

/-- Initial state of one connection worker with `bmReqPerConn = n`: all
slots launched (before the deadline), `reqWg` counter at `n`, empty
outcome buffer of capacity `2*n`, main loop selecting. -/
def initWState (n : Nat) : WState :=
  { slots := List.replicate n (.running true)
    queue := []
    wg := n
    done := false
    cancelled := false
    phase := .loop
    aggBefore := 0
    aggAfter := 0
    launchedBefore := n
    launchedAfter := 0 }

/-- C3 (refuted on the code — evaluation of the failing interleaving):
with one slot, the following legal schedule of `runReqsInParallel` drops a
started-before-deadline outcome on the timeout path: the attempt
completes; the timer fires (`close(done)`, main waits on `reqWg`); the
slot's `select` takes the `done` branch and calls `reqWg.Done()` — its
outcome is not yet sent; `reqWg.Wait()` returns; the drain `select` finds
the buffer empty and hits `default`, reaching `endloop`. The worker
finishes with zero outcomes aggregated although one attempt had started
before the deadline (the slot is still at its pending send), so that
attempt never reaches `requestCount`. -/
theorem claimC3_timeout_drain_drops_outcome :
    (runSched 2 (initWState 1)
      [.slotFinish 0, .mainTimer, .slotTakeDone 0, .mainWgDone,
        .mainDrainDefault]).map
      (fun s => (s.phase, s.launchedBefore, s.aggBefore + s.aggAfter, s.slots))
      = some (.finished, 1, 0, [.wgDoneCalled true]) := by
  rfl

/-- C8: when the cancellation signal has fired and the main loop selects
the `cancelled` branch, the worker closes `done` and reaches `endloop` in
that single step — for every state: no condition on the slots, the
`reqWg` counter or the outcome buffer, all of which are left untouched
(no waiting for in-flight attempts, no draining of queued outcomes). -/
theorem claimC8_cancel_immediate (cap : Nat) (s : WState)
    (hphase : s.phase = .loop) (hc : s.cancelled = true) :
    step cap s .mainCancel = some { s with done := true, phase := .finished } := by
  simp [step, hphase, hc]

/-- Witness for C8 on a state with an in-flight slot, a pending unsent
outcome and a non-empty buffer: cancellation still finishes immediately,
leaving them all behind. -/
theorem claimC8_witness :
    step 4
      { slots := [.running true, .outcomeReady true]
        queue := [true]
        wg := 2
        done := false
        cancelled := true
        phase := .loop
        aggBefore := 0
        aggAfter := 0
        launchedBefore := 3
        launchedAfter := 0 } .mainCancel
      = some
        { slots := [.running true, .outcomeReady true]
          queue := [true]
          wg := 2
          done := true
          cancelled := true
          phase := .finished
          aggBefore := 0
          aggAfter := 0
          launchedBefore := 3
          launchedAfter := 0 } :=
  claimC8_cancel_immediate 4 _ rfl rfl
